import Mathlib

/-!
# Verification of the `hg64` 64-bit histogram

A shallow embedding, in Lean 4, of the core of the `hg64` histogram /
quantile sketch (`hg64.c`), together with proofs about its key
arithmetic, its bucket layout, its counter bookkeeping, its merge
operation and its rank queries.

The embedding follows the `sigbits`-parameterised variant of the code
(`hg64_create(unsigned sigbits)`): a histogram is an array of 64 bins,
each bin lazily owning a dense array of `2^sigbits` counters.  Machine
`uint64_t` arithmetic is modelled with `Nat` plus explicit `% 2^64`
where the C code can wrap (counter and total accumulation); key and
index arithmetic never exceeds 64 bits on the domains used here, which
the theorems make explicit.  `__builtin_clzll v` is modelled as
`63 - Nat.log2 v`, its exact value for `0 < v < 2^64`.
-/

/-- Number of top-level bins; same as the number of bits in a value (`#define BINS 64`). -/
def BINS : Nat := 64

/-- `#define DENORMALS(hg) ((hg)->sigbits - 1)` -/
def DENORMALS (sigbits : Nat) : Nat := sigbits - 1

/-- `#define EXPONENTS(hg) (BINS - DENORMALS(hg))` -/
def EXPONENTS (sigbits : Nat) : Nat := BINS - DENORMALS sigbits

/-- `#define MANTISSAS(hg) (1 << (hg)->sigbits)` -/
def MANTISSAS (sigbits : Nat) : Nat := 2 ^ sigbits

/-- `#define KEYS(hg) (EXPONENTS(hg) * MANTISSAS(hg))` -/
def KEYS (sigbits : Nat) : Nat := EXPONENTS sigbits * MANTISSAS sigbits

/-- `#define BINSIZE(hg) MANTISSAS(hg)` -/
def BINSIZE (sigbits : Nat) : Nat := MANTISSAS sigbits

/-- `UINT64_MAX` -/
def U64MAX : Nat := 2 ^ 64 - 1

/-- Modulus of `uint64_t` arithmetic. -/
def M64 : Nat := 2 ^ 64

/-- `struct bin { uint64_t total; uint64_t *count; }`: a per-bin running
total and an optional (lazily allocated) dense array of counters. -/
structure Bin where
  total : Nat
  count : Option (List Nat)
deriving DecidableEq, Repr

/-- A freshly zeroed bin: null counter pointer, zero total. -/
def emptyBin : Bin := { total := 0, count := none }

/-- `struct hg64 { unsigned sigbits; struct bin bin[BINS]; }` -/
structure Hist where
  sigbits : Nat
  bin : List Bin
deriving DecidableEq, Repr

instance : Inhabited Hist := ⟨⟨1, List.replicate BINS emptyBin⟩⟩

/-- `hg64_create`: reject `sigbits` outside `[1, 6]`, otherwise return a
zeroed histogram (`*hg = (hg64){ .sigbits = sigbits }`).  Note that the
guard in the C source is `if(sigbits < 1 || 6 < sigbits)` even though
the accompanying `hg64.h` documents `sigbits` between 1 and 15. -/
def hg64_create (sigbits : Nat) : Option Hist :=
  if sigbits < 1 ∨ 6 < sigbits then none
  else some { sigbits := sigbits, bin := List.replicate BINS emptyBin }

/-- `get_minval` (a.k.a. `key_to_minval`): smallest value of a bucket. -/
def get_minval (sigbits key : Nat) : Nat :=
  let sigtop := 2 ^ sigbits
  let exponent := key / sigtop - 1
  let mantissa := key % sigtop + sigtop
  if key < sigtop then key else mantissa <<< exponent

/-- `get_maxval` (a.k.a. `key_to_maxval`): largest value of a bucket.
`UINT64_MAX/4` is pre-shifted so the C code never shifts by 64. -/
def get_maxval (sigbits key : Nat) : Nat :=
  let sigtop := 2 ^ sigbits
  let shift := 63 - key / sigtop
  let range := (U64MAX / 4) >>> shift
  get_minval sigbits key + range

/-- Fuel-bounded binary logarithm: agrees with `Nat.log2` whenever
`n < 2 ^ fuel` (`log2fuel_eq_log2` below) and, unlike `Nat.log2`, is
structurally recursive, so concrete keys evaluate inside the kernel. -/
def log2fuel : Nat → Nat → Nat
  | 0, _ => 0
  | fuel + 1, n => if 2 ≤ n then log2fuel fuel (n / 2) + 1 else 0

/-- `get_key` (a.k.a. `value_to_key`): map a value to its bucket key.
`__builtin_clzll binned` is `63 - log2 binned`, the exact count of
leading zeros of the 64-bit `binned`, which is never 0 because of the
`| sigtop`. -/
def get_key (sigbits value : Nat) : Nat :=
  let sigtop := 2 ^ sigbits
  let binned := value ||| sigtop
  let clz := 63 - log2fuel 64 binned
  let exponent := 63 - sigbits - clz
  let mantissa := value >>> exponent
  (exponent <<< sigbits) + mantissa

/-- Counters of a bin as read by the code: a null `count` pointer reads
as a bin of `MANTISSAS` zero counters (`get_counter` allocates exactly
that before writing; read paths treat null as zero). -/
def binCounts (sigbits : Nat) (b : Bin) : List Nat :=
  b.count.getD (List.replicate (MANTISSAS sigbits) 0)

/-- `bump_count`: add `c` to the counter of `key` (allocating the bin's
counter array if absent) and to the bin's total.  Both additions are
`uint64_t` additions, hence the `% M64`. -/
def bump_count (hg : Hist) (key c : Nat) : Hist :=
  let sigtop := MANTISSAS hg.sigbits
  let b := key / sigtop
  let i := key % sigtop
  let old := hg.bin.getD b emptyBin
  let counts := binCounts hg.sigbits old
  let counts' := counts.set i ((counts.getD i 0 + c) % M64)
  { hg with bin := hg.bin.set b { total := (old.total + c) % M64, count := some counts' } }

/-- `get_key_count`: read one counter; a null bin reads as zero. -/
def get_key_count (hg : Hist) (key : Nat) : Nat :=
  let sigtop := MANTISSAS hg.sigbits
  match (hg.bin.getD (key / sigtop) emptyBin).count with
  | none => 0
  | some l => l.getD (key % sigtop) 0

/-- `get_bin_count`: read a bin's running total. -/
def get_bin_count (hg : Hist) (key : Nat) : Nat :=
  (hg.bin.getD (key / MANTISSAS hg.sigbits) emptyBin).total

/-- `hg64_add`: record `count` occurrences of `value` (no-op when `count == 0`). -/
def hg64_add (hg : Hist) (value c : Nat) : Hist :=
  if 0 < c then bump_count hg (get_key hg.sigbits value) c else hg

/-- `hg64_inc`: `hg64_add(hg, value, 1)`. -/
def hg64_inc (hg : Hist) (value : Nat) : Hist := hg64_add hg value 1

/-- `hg64_population`: sum of the running totals of all 64 bins,
accumulated in `uint64_t`. -/
def hg64_population (hg : Hist) : Nat :=
  hg.bin.foldl (fun pop b => (pop + b.total) % M64) 0

/-- The key conversion used by `hg64_merge` in the source: `tk` starts as
`sk` and is shifted right or left by the difference in `sigbits`. -/
def merge_tk (tsig ssig sk : Nat) : Nat :=
  let tk := sk
  let tk := if tsig < ssig then tk >>> (ssig - tsig) else tk
  if ssig < tsig then tk <<< (tsig - ssig) else tk

/-- `hg64_merge` as implemented in `hg64.c`: for every source key with a
non-zero count, bump the shifted key in the target by the whole count. -/
def hg64_merge (target source : Hist) : Hist :=
  (List.range (KEYS source.sigbits)).foldl
    (fun t sk =>
      let cnt := get_key_count source sk
      if 0 < cnt then bump_count t (merge_tk t.sigbits source.sigbits sk) cnt else t)
    target

/-- `interpolate(span, mul, div)`: the C code computes
`frac = (div == 0) ? 1 : (double)mul / (double)div` and truncates
`span * frac`.  It is modelled here by exact floor arithmetic; on every
evaluation performed by the theorems below the double computation is
exact (`mul = 0` or `div = 0`), where both semantics agree. -/
def interpolate (span mul div : Nat) : Nat :=
  if div = 0 then span else span * mul / div

/-- First loop of `hg64_value_at_rank`: walk whole bins, subtracting bin
totals, until the rank falls inside a bin.  The loop advances `key` by
`binsize` each iteration, so `fuel = keys` iterations always suffice. -/
def rank_loop1 (hg : Hist) (keys binsize : Nat) : Nat → Nat → Nat → Nat × Nat
  | 0, key, rank => (key, rank)
  | fuel + 1, key, rank =>
    if key < keys then
      let count := get_bin_count hg key
      if rank < count then (key, rank)
      else rank_loop1 hg keys binsize fuel (key + binsize) (rank - count)
    else (key, rank)

/-- Second loop of `hg64_value_at_rank`: walk the counters of one bin. -/
def rank_loop2 (hg : Hist) (stop : Nat) : Nat → Nat → Nat → Nat × Nat
  | 0, key, rank => (key, rank)
  | fuel + 1, key, rank =>
    if key < stop then
      let count := get_key_count hg key
      if rank < count then (key, rank)
      else rank_loop2 hg stop fuel (key + 1) (rank - count)
    else (key, rank)

/-- `hg64_value_at_rank`: find the bucket containing `rank` and
interpolate inside it; `UINT64_MAX` when the walk falls off the end. -/
def hg64_value_at_rank (hg : Hist) (rank0 : Nat) : Nat :=
  let keys := KEYS hg.sigbits
  let binsize := BINSIZE hg.sigbits
  match rank_loop1 hg keys binsize keys 0 rank0 with
  | (key, rank) =>
    if key = keys then U64MAX
    else
      match rank_loop2 hg (key + binsize) binsize key rank with
      | (key2, rank2) =>
        if key2 = keys then U64MAX
        else
          let mn := get_minval hg.sigbits key2
          let mx := get_maxval hg.sigbits key2
          mn + interpolate (mx - mn) rank2 (get_key_count hg key2)

/-- Modelled from the spec: `hg64_put(hg, min, max, count)` is declared
and documented in the repository's `hg64.h` ("increases the buckets
that span `min` and `max` by a total of `count`") but its implementation
is not among the sources here.  Following the spec: convert the value
range to keys `kmin = value_to_key(min)`, `kmax = value_to_key(max)`,
and distribute `count` across the `kmax - kmin + 1` keys by integer
division, spreading the remainder over the first `rem` keys. -/
def hg64_put (hg : Hist) (mn mx c : Nat) : Hist :=
  let kmin := get_key hg.sigbits mn
  let kmax := get_key hg.sigbits mx
  let nkeys := kmax - kmin + 1
  let inc := c / nkeys
  let rem := c % nkeys
  (List.range nkeys).foldl
    (fun h j => bump_count h (kmin + j) (inc + if j < rem then 1 else 0)) hg

/-- Modelled from the spec: the put-based `hg64_merge` documented in the
repository's `hg64.h` ("uses `hg64_get()` and `hg64_next()` to export
the data from `source`, and `hg64_put()` to import it into `target`"),
whose implementation is likewise absent from the sources here: each
source bucket with a non-zero count is imported with `hg64_put`. -/
def hg64_merge_put (target source : Hist) : Hist :=
  (List.range (KEYS source.sigbits)).foldl
    (fun t sk =>
      let cnt := get_key_count source sk
      if 0 < cnt then
        hg64_put t (get_minval source.sigbits sk) (get_maxval source.sigbits sk) cnt
      else t)
    target

/-- Sum of the counters of one bin (zero for an unallocated bin). -/
def binSum (b : Bin) : Nat :=
  match b.count with
  | none => 0
  | some l => l.sum

/-- The exact (unwrapped) number of recorded events: the sum over all
bins of the sum of the bin's counters. -/
def truePop (hg : Hist) : Nat := (hg.bin.map binSum).sum

/-- Sum of the stored bin totals, unwrapped. -/
def sumTotals (hg : Hist) : Nat := (hg.bin.map Bin.total).sum

/-- The structural/counting invariant checked by `hg64_validate`:
64 bins; every allocated counter array has length `MANTISSAS`; every
bin's stored total equals the 64-bit sum of the bin's counters (zero
for an unallocated bin). -/
def hg64_invariant (hg : Hist) : Bool :=
  hg.bin.length == BINS &&
  hg.bin.all (fun b =>
    match b.count with
    | none => b.total == 0
    | some l => l.length == MANTISSAS hg.sigbits && b.total == l.sum % M64)

/-- Histograms built by a sequence of `create` / `add` / `inc` / `merge`
operations (`inc` is definitionally `add` with count 1).  `add` records
a 64-bit value. -/
inductive Reach : Hist → Prop where
  | create (sigbits : Nat) (hg : Hist) : hg64_create sigbits = some hg → Reach hg
  | add (hg : Hist) (value c : Nat) : Reach hg → value < M64 → Reach (hg64_add hg value c)
  | merge (t s : Hist) : Reach t → Reach s → Reach (hg64_merge t s)

/-- Histograms built from `create` followed by `add`/`inc` calls only
(the inputs of the merge-additivity property). -/
inductive Built : Hist → Prop where
  | create (sigbits : Nat) (hg : Hist) : hg64_create sigbits = some hg → Built hg
  | add (hg : Hist) (value c : Nat) : Built hg → value < M64 → Built (hg64_add hg value c)

/-! ## Basic arithmetic helpers -/

lemma two_pow_pos (n : Nat) : 0 < 2 ^ n := by
  induction n with
  | zero => decide
  | succ n ih => rw [pow_succ]; omega

lemma left_le_or (a b : Nat) : a ≤ a ||| b :=
  Nat.le_of_testBit (fun i h => by simp [Nat.testBit_or, h])

lemma right_le_or (a b : Nat) : b ≤ a ||| b :=
  Nat.le_of_testBit (fun i h => by simp [Nat.testBit_or, h])

lemma log2_eq_of {L n : Nat} (h1 : 2 ^ L ≤ n) (h2 : n < 2 ^ (L + 1)) :
    Nat.log2 n = L := by
  have hp := two_pow_pos L
  have hn : n ≠ 0 := by omega
  have hub : Nat.log2 n < L + 1 := (Nat.log2_lt hn).mpr h2
  have hlb : L ≤ Nat.log2 n := (Nat.le_log2 hn).mpr h1
  omega

lemma log2fuel_eq_log2 : ∀ (fuel n : Nat), n < 2 ^ fuel → log2fuel fuel n = Nat.log2 n := by
  intro fuel
  induction fuel with
  | zero =>
    intro n hn
    have hn0 : n = 0 := by omega
    subst hn0
    show 0 = Nat.log2 0
    rw [Nat.log2]
    simp
  | succ fuel ih =>
    intro n hn
    by_cases h2 : 2 ≤ n
    · have hdiv : n / 2 < 2 ^ fuel := by
        rw [Nat.div_lt_iff_lt_mul (by omega)]
        rw [pow_succ] at hn
        omega
      have hrec : Nat.log2 n = Nat.log2 (n / 2) + 1 := by
        conv_lhs => rw [Nat.log2]
        rw [if_pos h2]
      rw [hrec]
      simp only [log2fuel, if_pos h2]
      rw [ih _ hdiv]
    · have hrec : Nat.log2 n = 0 := by
        rw [Nat.log2]
        rw [if_neg h2]
      rw [hrec]
      simp only [log2fuel, if_neg h2]

lemma pred_pow_div (a b : Nat) (h : b ≤ a) : (2 ^ a - 1) / 2 ^ b = 2 ^ (a - b) - 1 := by
  have hb := two_pow_pos b
  have hab := two_pow_pos (a - b)
  have hmul : 2 ^ (a - b) * 2 ^ b = 2 ^ a := by
    rw [← pow_add]; congr 1; omega
  have hsm : (2 ^ (a - b) - 1) * 2 ^ b = 2 ^ (a - b) * 2 ^ b - 2 ^ b := by
    rw [Nat.sub_mul, one_mul]
  have h2a : 2 ^ b ≤ 2 ^ a := Nat.pow_le_pow_right (by decide) h
  have hsplit : 2 ^ a - 1 = (2 ^ b - 1) + (2 ^ (a - b) - 1) * 2 ^ b := by omega
  rw [hsplit, Nat.add_mul_div_right _ _ hb, Nat.div_eq_of_lt (by omega)]
  omega

lemma KEYS_eq (s : Nat) (hs : 1 ≤ s) : KEYS s = (65 - s) * 2 ^ s := by
  unfold KEYS EXPONENTS DENORMALS MANTISSAS BINS
  congr 1
  omega

lemma create_isSome_iff (s : Nat) : (hg64_create s).isSome ↔ 1 ≤ s ∧ s ≤ 6 := by
  unfold hg64_create
  by_cases h : s < 1 ∨ 6 < s
  · rw [if_pos h]; simp; omega
  · rw [if_neg h]; simp; omega

lemma create_eq_some (s : Nat) (hs1 : 1 ≤ s) (hs6 : s ≤ 6) :
    hg64_create s = some { sigbits := s, bin := List.replicate BINS emptyBin } := by
  unfold hg64_create
  rw [if_neg (by omega)]

lemma create_inv {s : Nat} {hg : Hist} (h : hg64_create s = some hg) :
    1 ≤ s ∧ s ≤ 6 ∧ hg = { sigbits := s, bin := List.replicate BINS emptyBin } := by
  unfold hg64_create at h
  split at h
  · exact absurd h (by simp)
  · next hc => refine ⟨by omega, by omega, by injection h with h; exact h.symm⟩

/-! ## Normal forms of the key arithmetic -/

lemma get_minval_denormal (s k : Nat) (h : k < 2 ^ s) : get_minval s k = k := by
  unfold get_minval
  simp [h]

lemma get_minval_normal (s k : Nat) (h : 2 ^ s ≤ k) :
    get_minval s k = (k % 2 ^ s + 2 ^ s) * 2 ^ (k / 2 ^ s - 1) := by
  unfold get_minval
  rw [if_neg (by omega), Nat.shiftLeft_eq]

lemma u64max_div4 : U64MAX / 4 = 2 ^ 62 - 1 := by decide

lemma get_maxval_denormal (s k : Nat) (h : k < 2 ^ s) : get_maxval s k = k := by
  have h0 : k / 2 ^ s = 0 := Nat.div_eq_of_lt h
  simp only [get_maxval]
  rw [u64max_div4, Nat.shiftRight_eq_div_pow, h0, get_minval_denormal s k h]
  have hz : (2 ^ 62 - 1) / 2 ^ (63 - 0) = 0 := Nat.div_eq_of_lt (by norm_num)
  rw [hz]
  omega

lemma get_maxval_normal (s k : Nat) (h : 2 ^ s ≤ k) (he : k / 2 ^ s ≤ 63) :
    get_maxval s k
      = (k % 2 ^ s + 2 ^ s) * 2 ^ (k / 2 ^ s - 1) + (2 ^ (k / 2 ^ s - 1) - 1) := by
  have he1 : 1 ≤ k / 2 ^ s := (Nat.one_le_div_iff (two_pow_pos s)).mpr h
  simp only [get_maxval]
  rw [get_minval_normal s k h, u64max_div4, Nat.shiftRight_eq_div_pow,
    pred_pow_div 62 (63 - k / 2 ^ s) (by omega)]
  have hz : 62 - (63 - k / 2 ^ s) = k / 2 ^ s - 1 := by omega
  rw [hz]

lemma get_key_denormal (s v : Nat) (hs63 : s ≤ 63) (h : v < 2 ^ s) : get_key s v = v := by
  simp only [get_key]
  have h1 : 2 ^ s ≤ v ||| 2 ^ s := right_le_or v (2 ^ s)
  have h2 : v ||| 2 ^ s < 2 ^ (s + 1) := by
    refine Nat.or_lt_two_pow (lt_of_lt_of_le h ?_) ?_
    · exact Nat.pow_le_pow_right (by decide) (Nat.le_succ s)
    · exact Nat.pow_lt_pow_right (by decide) (Nat.lt_succ_self s)
  rw [log2fuel_eq_log2 64 _ (lt_of_lt_of_le h2 (Nat.pow_le_pow_right (by decide) (by omega)))]
  rw [log2_eq_of h1 h2]
  have hz : 63 - s - (63 - s) = 0 := by omega
  rw [hz]
  simp [Nat.shiftLeft_eq]

lemma get_key_normal (s v L : Nat) (hsL : s ≤ L) (hL : L ≤ 63)
    (h1 : 2 ^ L ≤ v) (h2 : v < 2 ^ (L + 1)) :
    get_key s v = (L - s) * 2 ^ s + v / 2 ^ (L - s) := by
  simp only [get_key]
  have hb1 : 2 ^ L ≤ v ||| 2 ^ s := le_trans h1 (left_le_or v (2 ^ s))
  have hb2 : v ||| 2 ^ s < 2 ^ (L + 1) := by
    refine Nat.or_lt_two_pow h2 ?_
    exact Nat.pow_lt_pow_right (by decide) (by omega)
  rw [log2fuel_eq_log2 64 _ (lt_of_lt_of_le hb2 (Nat.pow_le_pow_right (by decide) (by omega)))]
  rw [log2_eq_of hb1 hb2]
  have hz : 63 - s - (63 - L) = L - s := by omega
  rw [hz, Nat.shiftLeft_eq, Nat.shiftRight_eq_div_pow]

/-! ## Decomposition helpers -/

lemma decomp_div (T e m : Nat) (hT : 0 < T) (hm : m < T) : (T * e + m) / T = e := by
  rw [Nat.mul_add_div hT, Nat.div_eq_of_lt hm]
  omega

lemma decomp_mod (T e m : Nat) (hm : m < T) : (T * e + m) % T = m := by
  rw [Nat.mul_add_mod, Nat.mod_eq_of_lt hm]

lemma e_bound (s k : Nat) (hs : 1 ≤ s) (hk : k < KEYS s) : k / 2 ^ s ≤ 64 - s := by
  have hK := KEYS_eq s hs
  have h : k < (65 - s) * 2 ^ s := by omega
  have h2 : k / 2 ^ s < 65 - s := by
    rw [Nat.div_lt_iff_lt_mul (two_pow_pos s)]
    exact h
  omega

lemma sigbits_le_63 (s k : Nat) (hs : 1 ≤ s) (hks : 2 ^ s ≤ k) (hk : k < KEYS s) :
    s ≤ 63 := by
  have h1 : 1 ≤ k / 2 ^ s := (Nat.one_le_div_iff (two_pow_pos s)).mpr hks
  have h2 := e_bound s k hs hk
  omega

/-! ## Round-trip of the key maps (claim C1 machinery) -/

lemma roundtrip_normal (s k : Nat) (hs : 1 ≤ s) (hks : 2 ^ s ≤ k) (hkK : k < KEYS s) :
    get_key s (get_minval s k) = k ∧ get_key s (get_maxval s k) = k := by
  have hTpos : 0 < 2 ^ s := two_pow_pos s
  have hm0 : k % 2 ^ s < 2 ^ s := Nat.mod_lt _ hTpos
  have he'1 : 1 ≤ k / 2 ^ s := (Nat.one_le_div_iff hTpos).mpr hks
  have he'hi : k / 2 ^ s ≤ 64 - s := e_bound s k hs hkK
  have hs63 : s ≤ 63 := by omega
  have hQpos : 0 < 2 ^ (k / 2 ^ s - 1) := two_pow_pos _
  have hmin : get_minval s k = (k % 2 ^ s + 2 ^ s) * 2 ^ (k / 2 ^ s - 1) :=
    get_minval_normal s k hks
  have hmax : get_maxval s k
      = (k % 2 ^ s + 2 ^ s) * 2 ^ (k / 2 ^ s - 1) + (2 ^ (k / 2 ^ s - 1) - 1) :=
    get_maxval_normal s k hks (by omega)
  have hTQ : 2 ^ s * 2 ^ (k / 2 ^ s - 1) = 2 ^ (s + (k / 2 ^ s - 1)) := by
    rw [← pow_add]
  have h2TQ : 2 * (2 ^ s * 2 ^ (k / 2 ^ s - 1)) = 2 ^ (s + (k / 2 ^ s - 1) + 1) := by
    rw [hTQ, pow_succ]
    ring
  have hlow : 2 ^ (s + (k / 2 ^ s - 1)) ≤ (k % 2 ^ s + 2 ^ s) * 2 ^ (k / 2 ^ s - 1) := by
    rw [← hTQ]
    exact Nat.mul_le_mul_right _ (by omega)
  have hhighm : (k % 2 ^ s + 2 ^ s) * 2 ^ (k / 2 ^ s - 1) + (2 ^ (k / 2 ^ s - 1) - 1)
      < 2 ^ (s + (k / 2 ^ s - 1) + 1) := by
    rw [← h2TQ]
    have h1 : (k % 2 ^ s + 2 ^ s) * 2 ^ (k / 2 ^ s - 1)
        ≤ (2 * 2 ^ s - 1) * 2 ^ (k / 2 ^ s - 1) :=
      Nat.mul_le_mul_right _ (by omega)
    have h2 : (2 * 2 ^ s - 1) * 2 ^ (k / 2 ^ s - 1)
        = 2 * 2 ^ s * 2 ^ (k / 2 ^ s - 1) - 2 ^ (k / 2 ^ s - 1) := by
      rw [Nat.sub_mul, one_mul]
    have h3 : 2 * 2 ^ s * 2 ^ (k / 2 ^ s - 1) = 2 * (2 ^ s * 2 ^ (k / 2 ^ s - 1)) := by
      ring
    have hWQ : 2 ^ (k / 2 ^ s - 1) ≤ 2 ^ s * 2 ^ (k / 2 ^ s - 1) :=
      Nat.le_mul_of_pos_left _ hTpos
    omega
  have hLs : s ≤ s + (k / 2 ^ s - 1) := Nat.le_add_right _ _
  have hL63 : s + (k / 2 ^ s - 1) ≤ 63 := by omega
  have hes : s + (k / 2 ^ s - 1) - s = k / 2 ^ s - 1 := by omega
  have hk' : 2 ^ s * (k / 2 ^ s) + k % 2 ^ s = k := Nat.div_add_mod k (2 ^ s)
  have h4 : (k / 2 ^ s - 1 + 1) * 2 ^ s = (k / 2 ^ s - 1) * 2 ^ s + 2 ^ s :=
    Nat.succ_mul _ _
  have h5 : k / 2 ^ s - 1 + 1 = k / 2 ^ s := by omega
  rw [h5] at h4
  have h6 : 2 ^ s * (k / 2 ^ s) = (k / 2 ^ s) * 2 ^ s := Nat.mul_comm _ _
  constructor
  · rw [hmin]
    rw [get_key_normal s ((k % 2 ^ s + 2 ^ s) * 2 ^ (k / 2 ^ s - 1))
      (s + (k / 2 ^ s - 1)) hLs hL63 hlow
      (lt_of_le_of_lt (Nat.le_add_right _ _) hhighm)]
    rw [hes, Nat.mul_div_cancel _ hQpos]
    omega
  · rw [hmax]
    rw [get_key_normal s
      ((k % 2 ^ s + 2 ^ s) * 2 ^ (k / 2 ^ s - 1) + (2 ^ (k / 2 ^ s - 1) - 1))
      (s + (k / 2 ^ s - 1)) hLs hL63
      (le_trans hlow (Nat.le_add_right _ _)) hhighm]
    rw [hes]
    have hdivmax : ((k % 2 ^ s + 2 ^ s) * 2 ^ (k / 2 ^ s - 1) + (2 ^ (k / 2 ^ s - 1) - 1))
        / 2 ^ (k / 2 ^ s - 1) = k % 2 ^ s + 2 ^ s := by
      rw [Nat.mul_comm (k % 2 ^ s + 2 ^ s) (2 ^ (k / 2 ^ s - 1)),
        Nat.mul_add_div hQpos, Nat.div_eq_of_lt (by omega)]
      omega
    rw [hdivmax]
    omega

lemma roundtrip_denormal (s k : Nat) (hs63 : s ≤ 63) (hk : k < 2 ^ s) :
    get_key s (get_minval s k) = k ∧ get_key s (get_maxval s k) = k := by
  rw [get_minval_denormal s k hk, get_maxval_denormal s k hk]
  exact ⟨get_key_denormal s k hs63 hk, get_key_denormal s k hs63 hk⟩

/-- C1.  For every `sigbits` accepted by `create` and every key `k < keys`,
mapping the bucket endpoints back through the value-to-key function is the
identity: `value_to_key (key_to_min k) = k` and
`value_to_key (key_to_max k) = k`. -/
theorem roundtrip_minval_maxval (s : Nat) (hacc : (hg64_create s).isSome)
    (k : Nat) (hk : k < KEYS s) :
    get_key s (get_minval s k) = k ∧ get_key s (get_maxval s k) = k := by
  obtain ⟨hs1, _hs6⟩ := (create_isSome_iff s).mp hacc
  by_cases hd : k < 2 ^ s
  · exact roundtrip_denormal s k (by omega) hd
  · exact roundtrip_normal s k hs1 (by omega) hk

/-- Witness for C1 at `sigbits = 4`, `k = 33`. -/
theorem roundtrip_minval_maxval_witness :
    get_key 4 (get_minval 4 33) = 33 ∧ get_key 4 (get_maxval 4 33) = 33 :=
  roundtrip_minval_maxval 4 (by decide) 33 (by decide)

/-! ## Contiguity of the buckets (claim C2 machinery) -/

lemma minval_zero (s : Nat) : get_minval s 0 = 0 :=
  get_minval_denormal s 0 (two_pow_pos s)

lemma maxval_last (s : Nat) (hs : 1 ≤ s) (hs63 : s ≤ 63) :
    get_maxval s (KEYS s - 1) = U64MAX := by
  have hTpos : 0 < 2 ^ s := two_pow_pos s
  have hK := KEYS_eq s hs
  have hc : (64 - s) * 2 ^ s = 2 ^ s * (64 - s) := Nat.mul_comm _ _
  have h65 : (65 - s) * 2 ^ s = (64 - s) * 2 ^ s + 2 ^ s := by
    have h : 65 - s = (64 - s) + 1 := by omega
    rw [h, Nat.add_mul, one_mul]
  have hk1eq : KEYS s - 1 = 2 ^ s * (64 - s) + (2 ^ s - 1) := by omega
  have hdiv : (KEYS s - 1) / 2 ^ s = 64 - s := by
    rw [hk1eq]; exact decomp_div _ _ _ hTpos (by omega)
  have hmod : (KEYS s - 1) % 2 ^ s = 2 ^ s - 1 := by
    rw [hk1eq]; exact decomp_mod _ _ _ (by omega)
  have hksle : 2 ^ s ≤ KEYS s - 1 := by
    have h1 : 2 ^ s * 1 ≤ 2 ^ s * (64 - s) := Nat.mul_le_mul_left _ (by omega)
    omega
  rw [get_maxval_normal s (KEYS s - 1) hksle (by omega), hdiv, hmod]
  have he : 64 - s - 1 = 63 - s := by omega
  rw [he]
  have hTQ : 2 ^ s * 2 ^ (63 - s) = 2 ^ 63 := by
    rw [← pow_add]; congr 1; omega
  have hA : (2 ^ s - 1 + 2 ^ s + 1) * 2 ^ (63 - s)
      = (2 ^ s - 1 + 2 ^ s) * 2 ^ (63 - s) + 2 ^ (63 - s) := Nat.succ_mul _ _
  have hB : 2 ^ s - 1 + 2 ^ s + 1 = 2 * 2 ^ s := by omega
  rw [hB] at hA
  have hC : 2 * 2 ^ s * 2 ^ (63 - s) = 2 * (2 ^ s * 2 ^ (63 - s)) := by ring
  have h64 : (2 : Nat) ^ 64 = 2 * 2 ^ 63 := by norm_num
  have hQpos : 0 < 2 ^ (63 - s) := two_pow_pos _
  unfold U64MAX
  omega

lemma contiguity (s k : Nat) (hs : 1 ≤ s) (hk1 : 1 ≤ k) (hkK : k < KEYS s) :
    get_maxval s (k - 1) + 1 = get_minval s k := by
  have hTpos : 0 < 2 ^ s := two_pow_pos s
  by_cases hd : k < 2 ^ s
  · rw [get_maxval_denormal s (k - 1) (by omega), get_minval_denormal s k hd]
    omega
  · have hkT : 2 ^ s ≤ k := by omega
    have he'1 : 1 ≤ k / 2 ^ s := (Nat.one_le_div_iff hTpos).mpr hkT
    have he'hi : k / 2 ^ s ≤ 64 - s := e_bound s k hs hkK
    have hs63 : s ≤ 63 := by omega
    have hk' : 2 ^ s * (k / 2 ^ s) + k % 2 ^ s = k := Nat.div_add_mod k (2 ^ s)
    have hm0 : k % 2 ^ s < 2 ^ s := Nat.mod_lt _ hTpos
    by_cases hkeq : k = 2 ^ s
    · subst hkeq
      rw [get_maxval_denormal s (2 ^ s - 1) (by omega),
        get_minval_normal s (2 ^ s) (le_refl _), Nat.mod_self, Nat.div_self hTpos]
      simp
      omega
    · by_cases hm : 1 ≤ k % 2 ^ s
      · -- same bin as k - 1
        have hk1eq : k - 1 = 2 ^ s * (k / 2 ^ s) + (k % 2 ^ s - 1) := by omega
        have hdiv : (k - 1) / 2 ^ s = k / 2 ^ s := by
          rw [hk1eq]; exact decomp_div _ _ _ hTpos (by omega)
        have hmod : (k - 1) % 2 ^ s = k % 2 ^ s - 1 := by
          rw [hk1eq]; exact decomp_mod _ _ _ (by omega)
        have hprev : 2 ^ s ≤ k - 1 := by
          have h1 : 2 ^ s * 1 ≤ 2 ^ s * (k / 2 ^ s) := Nat.mul_le_mul_left _ he'1
          omega
        rw [get_maxval_normal s (k - 1) hprev (by omega), hdiv, hmod,
          get_minval_normal s k hkT]
        have hQpos : 0 < 2 ^ (k / 2 ^ s - 1) := two_pow_pos _
        have hA : (k % 2 ^ s - 1 + 2 ^ s + 1) * 2 ^ (k / 2 ^ s - 1)
            = (k % 2 ^ s - 1 + 2 ^ s) * 2 ^ (k / 2 ^ s - 1) + 2 ^ (k / 2 ^ s - 1) :=
          Nat.succ_mul _ _
        have hB : k % 2 ^ s - 1 + 2 ^ s + 1 = k % 2 ^ s + 2 ^ s := by omega
        rw [hB] at hA
        omega
      · -- k is the first key of its bin, k - 1 the last of the previous one
        have hm0z : k % 2 ^ s = 0 := by omega
        have he'2 : 2 ≤ k / 2 ^ s := by
          rcases Nat.lt_or_ge (k / 2 ^ s) 2 with h2 | h2
          · interval_cases h : k / 2 ^ s
            · simp [h] at hk'
              omega
          · exact h2
        have hmulsucc : 2 ^ s * (k / 2 ^ s) = 2 ^ s * (k / 2 ^ s - 1) + 2 ^ s := by
          have h := Nat.mul_succ (2 ^ s) (k / 2 ^ s - 1)
          have h2 : (k / 2 ^ s - 1).succ = k / 2 ^ s := by omega
          rw [h2] at h
          omega
        have hk1eq : k - 1 = 2 ^ s * (k / 2 ^ s - 1) + (2 ^ s - 1) := by omega
        have hdiv : (k - 1) / 2 ^ s = k / 2 ^ s - 1 := by
          rw [hk1eq]; exact decomp_div _ _ _ hTpos (by omega)
        have hmod : (k - 1) % 2 ^ s = 2 ^ s - 1 := by
          rw [hk1eq]; exact decomp_mod _ _ _ (by omega)
        have hprev : 2 ^ s ≤ k - 1 := by
          have h1 : 2 ^ s * 1 ≤ 2 ^ s * (k / 2 ^ s - 1) := Nat.mul_le_mul_left _ (by omega)
          omega
        rw [get_maxval_normal s (k - 1) hprev (by omega), hdiv, hmod,
          get_minval_normal s k hkT, hm0z]
        have he2 : k / 2 ^ s - 1 - 1 = k / 2 ^ s - 2 := by omega
        rw [he2]
        have hQpos : 0 < 2 ^ (k / 2 ^ s - 2) := two_pow_pos _
        have hA : (2 ^ s - 1 + 2 ^ s + 1) * 2 ^ (k / 2 ^ s - 2)
            = (2 ^ s - 1 + 2 ^ s) * 2 ^ (k / 2 ^ s - 2) + 2 ^ (k / 2 ^ s - 2) :=
          Nat.succ_mul _ _
        have hB : 2 ^ s - 1 + 2 ^ s + 1 = 2 * 2 ^ s := by omega
        rw [hB] at hA
        have hC : 2 * 2 ^ s * 2 ^ (k / 2 ^ s - 2) = 2 ^ s * (2 * 2 ^ (k / 2 ^ s - 2)) := by
          ring
        have hD : (2 : Nat) * 2 ^ (k / 2 ^ s - 2) = 2 ^ (k / 2 ^ s - 1) := by
          rw [← pow_succ']
          congr 1
          omega
        rw [hD] at hC
        have hE : (0 + 2 ^ s) * 2 ^ (k / 2 ^ s - 1) = 2 ^ s * 2 ^ (k / 2 ^ s - 1) := by
          ring
        omega

/-- C2.  For every `sigbits` accepted by `create`, the buckets partition the
64-bit range contiguously: `key_to_min 0 = 0`,
`key_to_max (keys - 1) = 2^64 - 1`, and `key_to_max (k-1) + 1 = key_to_min k`
for every `1 ≤ k < keys`. -/
theorem bucket_partition_contiguous (s : Nat) (hacc : (hg64_create s).isSome) :
    get_minval s 0 = 0 ∧ get_maxval s (KEYS s - 1) = U64MAX ∧
    ∀ k, 1 ≤ k → k < KEYS s → get_maxval s (k - 1) + 1 = get_minval s k := by
  obtain ⟨hs1, hs6⟩ := (create_isSome_iff s).mp hacc
  exact ⟨minval_zero s, maxval_last s hs1 (by omega),
    fun k hk1 hkK => contiguity s k hs1 hk1 hkK⟩

/-- Witness for C2 at `sigbits = 2` with the contiguity part at `k = 5`. -/
theorem bucket_partition_contiguous_witness :
    get_minval 2 0 = 0 ∧ get_maxval 2 (KEYS 2 - 1) = U64MAX ∧
    get_maxval 2 (5 - 1) + 1 = get_minval 2 5 := by
  obtain ⟨h1, h2, h3⟩ := bucket_partition_contiguous 2 (by decide)
  exact ⟨h1, h2, h3 5 (by decide) (by decide)⟩

/-! ## Containment of a value in its bucket (claim C3 machinery) -/

lemma key_lt_and_contains (s v : Nat) (hs : 1 ≤ s) (hs63 : s ≤ 63) (hv : v < M64) :
    get_key s v < KEYS s ∧
    get_minval s (get_key s v) ≤ v ∧ v ≤ get_maxval s (get_key s v) := by
  have hTpos : 0 < 2 ^ s := two_pow_pos s
  have hK := KEYS_eq s hs
  by_cases hd : v < 2 ^ s
  · rw [get_key_denormal s v hs63 hd, get_minval_denormal s v hd, get_maxval_denormal s v hd]
    refine ⟨lt_of_lt_of_le hd ?_, le_refl v, le_refl v⟩
    have h1 : 2 ^ s ≤ (65 - s) * 2 ^ s := Nat.le_mul_of_pos_left _ (by omega)
    omega
  · have hvT : 2 ^ s ≤ v := by omega
    have hv0 : v ≠ 0 := by omega
    have hL1 : 2 ^ Nat.log2 v ≤ v := Nat.log2_self_le hv0
    have hL2 : v < 2 ^ (Nat.log2 v + 1) := Nat.lt_log2_self
    have hsL : s ≤ Nat.log2 v := (Nat.le_log2 hv0).mpr hvT
    have hL63 : Nat.log2 v ≤ 63 := by
      have h := (Nat.log2_lt hv0).mpr (show v < 2 ^ 64 from hv)
      omega
    have hkey := get_key_normal s v (Nat.log2 v) hsL hL63 hL1 hL2
    have hPpos : 0 < 2 ^ (Nat.log2 v - s) := two_pow_pos _
    have hmlo : 2 ^ s ≤ v / 2 ^ (Nat.log2 v - s) := by
      rw [Nat.le_div_iff_mul_le hPpos, ← pow_add]
      have h : s + (Nat.log2 v - s) = Nat.log2 v := by omega
      rw [h]
      exact hL1
    have hmhi : v / 2 ^ (Nat.log2 v - s) < 2 * 2 ^ s := by
      rw [Nat.div_lt_iff_lt_mul hPpos]
      have h : 2 * 2 ^ s * 2 ^ (Nat.log2 v - s) = 2 ^ (Nat.log2 v + 1) := by
        rw [mul_assoc, ← pow_add]
        have h2 : s + (Nat.log2 v - s) = Nat.log2 v := by omega
        rw [h2, ← pow_succ']
      rw [h]
      exact hL2
    have hkeyK : get_key s v < KEYS s := by
      rw [hkey]
      have h1 : (Nat.log2 v - s) * 2 ^ s ≤ (63 - s) * 2 ^ s :=
        Nat.mul_le_mul_right _ (by omega)
      have h2 : (65 - s) * 2 ^ s = (63 - s) * 2 ^ s + 2 * 2 ^ s := by
        have h : 65 - s = (63 - s) + 2 := by omega
        rw [h, Nat.add_mul]
      omega
    have hkeyeq : (Nat.log2 v - s) * 2 ^ s + v / 2 ^ (Nat.log2 v - s)
        = 2 ^ s * (Nat.log2 v - s + 1) + (v / 2 ^ (Nat.log2 v - s) - 2 ^ s) := by
      have h3 : 2 ^ s * (Nat.log2 v - s + 1) = 2 ^ s * (Nat.log2 v - s) + 2 ^ s :=
        Nat.mul_succ _ _
      have h4 : (Nat.log2 v - s) * 2 ^ s = 2 ^ s * (Nat.log2 v - s) := Nat.mul_comm _ _
      omega
    have hdiv : ((Nat.log2 v - s) * 2 ^ s + v / 2 ^ (Nat.log2 v - s)) / 2 ^ s
        = Nat.log2 v - s + 1 := by
      rw [hkeyeq]; exact decomp_div _ _ _ hTpos (by omega)
    have hmod : ((Nat.log2 v - s) * 2 ^ s + v / 2 ^ (Nat.log2 v - s)) % 2 ^ s
        = v / 2 ^ (Nat.log2 v - s) - 2 ^ s := by
      rw [hkeyeq]; exact decomp_mod _ _ _ (by omega)
    have hkT : 2 ^ s ≤ (Nat.log2 v - s) * 2 ^ s + v / 2 ^ (Nat.log2 v - s) := by
      omega
    have hdm := Nat.div_add_mod v (2 ^ (Nat.log2 v - s))
    have hr : v % 2 ^ (Nat.log2 v - s) < 2 ^ (Nat.log2 v - s) :=
      Nat.mod_lt _ hPpos
    have hcomm : 2 ^ (Nat.log2 v - s) * (v / 2 ^ (Nat.log2 v - s))
        = (v / 2 ^ (Nat.log2 v - s)) * 2 ^ (Nat.log2 v - s) := Nat.mul_comm _ _
    have he : Nat.log2 v - s + 1 - 1 = Nat.log2 v - s := by omega
    have hsub : v / 2 ^ (Nat.log2 v - s) - 2 ^ s + 2 ^ s = v / 2 ^ (Nat.log2 v - s) := by
      omega
    refine ⟨hkeyK, ?_, ?_⟩
    · -- min ≤ v
      rw [hkey, get_minval_normal s _ hkT, hdiv, hmod, he, hsub]
      omega
    · -- v ≤ max
      rw [hkey, get_maxval_normal s _ hkT (by rw [hdiv]; omega), hdiv, hmod, he, hsub]
      omega

/-- C3.  For every `sigbits` accepted by `create` and every 64-bit value `v`,
the key `k = value_to_key v` satisfies `k < keys` and
`key_to_min k ≤ v ≤ key_to_max k`. -/
theorem value_bucket_containment (s : Nat) (hacc : (hg64_create s).isSome)
    (v : Nat) (hv : v < M64) :
    get_key s v < KEYS s ∧
    get_minval s (get_key s v) ≤ v ∧ v ≤ get_maxval s (get_key s v) := by
  obtain ⟨hs1, hs6⟩ := (create_isSome_iff s).mp hacc
  exact key_lt_and_contains s v hs1 (by omega) hv

/-- Witness for C3 at `sigbits = 3`, `v = 1000`. -/
theorem value_bucket_containment_witness :
    get_key 3 1000 < KEYS 3 ∧
    get_minval 3 (get_key 3 1000) ≤ 1000 ∧ 1000 ≤ get_maxval 3 (get_key 3 1000) :=
  value_bucket_containment 3 (by decide) 1000 (by decide)

/-- C4 (code bug).  The claim — and the documentation of `hg64_create` in
the repository's `hg64.h` ("`sigbits` must be between 1 and 15 inclusive"),
as well as the CSV exploration driver, which accepts `sigbits` up to 15 on
its command line before calling `hg64_create` — require `create` to succeed
on all of `[1, 15]`.  The implementation's guard is
`if(sigbits < 1 || 6 < sigbits) return NULL;`, so `create` rejects 7..15:
`hg64_create 7 = none` although the claim requires a valid histogram.  For
the range the code does accept, all bin pointers are null as claimed. -/
theorem create_rejects_sigbits_above_six :
    hg64_create 7 = none ∧ hg64_create 15 = none ∧
    hg64_create 0 = none ∧ hg64_create 16 = none ∧
    hg64_create 1 = some { sigbits := 1, bin := List.replicate BINS emptyBin } ∧
    hg64_create 6 = some { sigbits := 6, bin := List.replicate BINS emptyBin } ∧
    (∀ s, (hg64_create s).isSome ↔ 1 ≤ s ∧ s ≤ 6) := by
  refine ⟨by decide, by decide, by decide, by decide, by decide, by decide, ?_⟩
  exact create_isSome_iff

/-! ## List helpers for the counter bookkeeping -/

lemma getD_set_self' {α : Type} (d a : α) :
    ∀ (l : List α) (i : Nat), i < l.length → (l.set i a).getD i d = a
  | [], i, h => absurd h (by simp)
  | _ :: _, 0, _ => rfl
  | _ :: xs, i + 1, h => getD_set_self' d a xs i (by simpa using h)

lemma getD_set_ne' {α : Type} (d a : α) :
    ∀ (l : List α) (i j : Nat), i ≠ j → (l.set i a).getD j d = l.getD j d
  | [], _, _, _ => by simp
  | _ :: _, 0, 0, h => absurd rfl h
  | _ :: _, 0, _ + 1, _ => rfl
  | _ :: _, _ + 1, 0, _ => rfl
  | _ :: xs, i + 1, j + 1, h => getD_set_ne' d a xs i j (fun hh => h (by omega))

lemma getD_replicate_zero : ∀ (n i : Nat), (List.replicate n (0 : Nat)).getD i 0 = 0
  | 0, _ => by simp
  | _ + 1, 0 => rfl
  | n + 1, i + 1 => getD_replicate_zero n i

lemma getD_mem_of_lt {α : Type} (l : List α) (i : Nat) (d : α) (h : i < l.length) :
    l.getD i d ∈ l := by
  rw [List.getD_eq_getElem?_getD, List.getElem?_eq_getElem h]
  exact List.getElem_mem h

lemma sum_map_set {α : Type} (f : α → Nat) (d : α) :
    ∀ (l : List α) (i : Nat) (a : α), i < l.length →
      ((l.set i a).map f).sum + f (l.getD i d) = (l.map f).sum + f a
  | [], i, a, h => absurd h (by simp)
  | x :: xs, 0, a, _ => by simp [List.set]; omega
  | x :: xs, i + 1, a, h => by
    have ih := sum_map_set f d xs i a (by simpa using h)
    simp only [List.set, List.map_cons, List.sum_cons, List.getD_cons_succ]
    omega

lemma sum_set_nat :
    ∀ (l : List Nat) (i : Nat) (x : Nat), i < l.length →
      (l.set i x).sum + l.getD i 0 = l.sum + x := by
  intro l i x h
  have := sum_map_set (fun y => y) 0 l i x h
  simpa using this

lemma list_sum_getD (l : List Nat) :
    l.sum = ∑ i ∈ Finset.range l.length, l.getD i 0 := by
  induction l with
  | nil => simp
  | cons x xs ih =>
    rw [List.sum_cons, List.length_cons, Finset.sum_range_succ', ih]
    simp
    omega

/-! ## The structural invariant and its preservation -/

/-- Propositional form of the per-bin invariant. -/
def InvBin (m : Nat) (b : Bin) : Prop :=
  match b.count with
  | none => b.total = 0
  | some l => l.length = m ∧ b.total = l.sum % M64

/-- Propositional form of `hg64_invariant`. -/
def HistInv (hg : Hist) : Prop :=
  hg.bin.length = BINS ∧ ∀ b ∈ hg.bin, InvBin (MANTISSAS hg.sigbits) b

lemma invariant_iff_Inv (hg : Hist) : hg64_invariant hg = true ↔ HistInv hg := by
  unfold hg64_invariant HistInv
  rw [Bool.and_eq_true, beq_iff_eq, List.all_eq_true]
  constructor
  · rintro ⟨h1, h2⟩
    refine ⟨h1, fun b hb => ?_⟩
    have := h2 b hb
    unfold InvBin
    cases hcnt : b.count with
    | none => rw [hcnt] at this; simpa using this
    | some l =>
      rw [hcnt] at this
      simp only [Bool.and_eq_true, beq_iff_eq] at this
      exact this
  · rintro ⟨h1, h2⟩
    refine ⟨h1, fun b hb => ?_⟩
    have := h2 b hb
    unfold InvBin at this
    cases hcnt : b.count with
    | none => rw [hcnt] at this; simp [this]
    | some l =>
      rw [hcnt] at this
      simp only [Bool.and_eq_true, beq_iff_eq]
      exact this

/-- Only the counter-array length part of the invariant. -/
def WFlen (hg : Hist) : Prop :=
  ∀ b ∈ hg.bin, ∀ l, b.count = some l → l.length = MANTISSAS hg.sigbits

lemma HistInv.wflen {hg : Hist} (h : HistInv hg) : WFlen hg := by
  intro b hb l hl
  have := h.2 b hb
  unfold InvBin at this
  rw [hl] at this
  exact this.1

lemma bump_sigbits (hg : Hist) (k c : Nat) : (bump_count hg k c).sigbits = hg.sigbits := rfl

lemma bump_bin_length (hg : Hist) (k c : Nat) :
    (bump_count hg k c).bin.length = hg.bin.length := by
  simp [bump_count]

lemma WFlen_bump (hg : Hist) (k c : Nat) (h : WFlen hg) : WFlen (bump_count hg k c) := by
  intro b hb l hl
  rw [bump_sigbits]
  simp only [bump_count] at hb
  rcases List.mem_or_eq_of_mem_set hb with hmem | heq
  · exact h b hmem l hl
  · subst heq
    simp only at hl
    injection hl with hl
    subst hl
    rw [List.length_set]
    unfold binCounts
    cases hcnt : (hg.bin.getD (k / MANTISSAS hg.sigbits) emptyBin).count with
    | none => simp [List.length_replicate]
    | some l0 =>
      simp only [Option.getD_some]
      by_cases hbin : k / MANTISSAS hg.sigbits < hg.bin.length
      · exact h _ (getD_mem_of_lt _ _ _ hbin) l0 hcnt
      · rw [List.getD_eq_getElem?_getD, List.getElem?_eq_none (by omega)] at hcnt
        simp [emptyBin] at hcnt

/-- Effect of `bump_count` on a single counter read. -/
lemma get_key_count_bump (hg : Hist) (k c q : Nat) (hWF : WFlen hg)
    (hkb : k / MANTISSAS hg.sigbits < hg.bin.length) :
    get_key_count (bump_count hg k c) q
      = if q = k then (get_key_count hg k + c) % M64 else get_key_count hg q := by
  have hT : 0 < MANTISSAS hg.sigbits := two_pow_pos _
  set T := MANTISSAS hg.sigbits with hTdef
  have hlencounts : (binCounts hg.sigbits (hg.bin.getD (k / T) emptyBin)).length = T := by
    unfold binCounts
    cases hcnt : (hg.bin.getD (k / T) emptyBin).count with
    | none => simp [hTdef]
    | some l0 =>
      simp only [Option.getD_some]
      exact hWF _ (getD_mem_of_lt _ _ _ hkb) l0 hcnt
  by_cases hq : q = k
  · subst hq
    simp only [get_key_count, bump_count, bump_sigbits, ← hTdef]
    rw [getD_set_self' _ _ _ _ hkb]
    simp only
    rw [getD_set_self' _ _ _ _ (by rw [hlencounts]; exact Nat.mod_lt _ hT)]
    unfold binCounts
    cases hcnt : (hg.bin.getD (q / T) emptyBin).count with
    | none => simp [getD_replicate_zero]
    | some l0 => simp
  · rw [if_neg hq]
    simp only [get_key_count, bump_count, bump_sigbits, ← hTdef]
    by_cases hbin : q / T = k / T
    · rw [hbin, getD_set_self' _ _ _ _ hkb]
      simp only
      have hmodne : q % T ≠ k % T := by
        intro hmod
        apply hq
        have hq' := Nat.div_add_mod q T
        have hk' := Nat.div_add_mod k T
        rw [hbin, hmod] at hq'
        omega
      rw [getD_set_ne' _ _ _ _ _ (fun hh => hmodne hh.symm)]
      unfold binCounts
      cases hcnt : (hg.bin.getD (k / T) emptyBin).count with
      | none => simp [getD_replicate_zero]
      | some l0 => simp
    · rw [getD_set_ne' _ _ _ _ _ (fun hh => hbin hh.symm)]

lemma binSum_mod (m : Nat) (b : Bin) (h : InvBin m b) : b.total = binSum b % M64 := by
  unfold InvBin at h
  unfold binSum
  cases hcnt : b.count with
  | none => rw [hcnt] at h; simp [h]
  | some l => rw [hcnt] at h; exact h.2

lemma HistInv_bump (hg : Hist) (k c : Nat) (h : HistInv hg) : HistInv (bump_count hg k c) := by
  obtain ⟨hlen, hbins⟩ := h
  refine ⟨by rw [bump_bin_length]; exact hlen, ?_⟩
  intro b hb
  rw [bump_sigbits]
  simp only [bump_count] at hb
  rcases List.mem_or_eq_of_mem_set hb with hmem | heq
  · exact hbins b hmem
  · subst heq
    have hT : 0 < MANTISSAS hg.sigbits := two_pow_pos _
    by_cases hkb : k / MANTISSAS hg.sigbits < hg.bin.length
    · have hold := hbins _ (getD_mem_of_lt _ (k / MANTISSAS hg.sigbits) emptyBin hkb)
      unfold InvBin at hold ⊢
      simp only
      cases hcnt : (hg.bin.getD (k / MANTISSAS hg.sigbits) emptyBin).count with
      | none =>
        rw [hcnt] at hold
        unfold binCounts
        rw [hcnt]
        simp only [Option.getD_none]
        refine ⟨by simp, ?_⟩
        have hgd : (List.replicate (MANTISSAS hg.sigbits) (0 : Nat)).getD (k % MANTISSAS hg.sigbits) 0 = 0 :=
          getD_replicate_zero _ _
        have hset := sum_set_nat (List.replicate (MANTISSAS hg.sigbits) 0)
          (k % MANTISSAS hg.sigbits)
          ((List.getD (List.replicate (MANTISSAS hg.sigbits) 0) (k % MANTISSAS hg.sigbits) 0 + c) % M64)
          (by simp; exact Nat.mod_lt _ hT)
        have hrepl : (List.replicate (MANTISSAS hg.sigbits) (0 : Nat)).sum = 0 := by simp
        rw [hold]
        unfold M64 at *
        omega
      | some l =>
        rw [hcnt] at hold
        obtain ⟨hlenl, htot⟩ := hold
        unfold binCounts
        rw [hcnt]
        simp only [Option.getD_some]
        refine ⟨by simp [hlenl], ?_⟩
        have hkmod : k % MANTISSAS hg.sigbits < l.length := by
          rw [hlenl]; exact Nat.mod_lt _ hT
        have hset := sum_set_nat l (k % MANTISSAS hg.sigbits)
          ((l.getD (k % MANTISSAS hg.sigbits) 0 + c) % M64) hkmod
        have hle : l.getD (k % MANTISSAS hg.sigbits) 0 ≤ l.sum := by
          have hmem := getD_mem_of_lt l (k % MANTISSAS hg.sigbits) 0 hkmod
          exact List.single_le_sum (fun x _ => Nat.zero_le x) _ hmem
        rw [htot]
        unfold M64 at *
        omega
    · rw [List.set_eq_of_length_le (by omega)] at hb
      exact hbins _ hb

/-! ## Population bookkeeping -/

lemma foldl_mod_sum (l : List Bin) (acc : Nat) (hacc : acc < M64) :
    l.foldl (fun pop b => (pop + b.total) % M64) acc = (acc + (l.map Bin.total).sum) % M64 := by
  induction l generalizing acc with
  | nil => simp [Nat.mod_eq_of_lt hacc]
  | cons b bs ih =>
    rw [List.foldl_cons, ih _ (Nat.mod_lt _ (by unfold M64; positivity)),
      List.map_cons, List.sum_cons, Nat.mod_add_mod]
    congr 1
    omega

lemma population_eq_sum (hg : Hist) : hg64_population hg = sumTotals hg % M64 := by
  unfold hg64_population sumTotals
  rw [foldl_mod_sum _ 0 (by unfold M64; positivity), Nat.zero_add]

lemma total_le_sumTotals (hg : Hist) (b : Nat) (hb : b < hg.bin.length) :
    (hg.bin.getD b emptyBin).total ≤ sumTotals hg := by
  unfold sumTotals
  have hmem := getD_mem_of_lt hg.bin b emptyBin hb
  exact List.single_le_sum (fun x _ => Nat.zero_le x) _
    (List.mem_map_of_mem Bin.total hmem)

lemma population_bump (hg : Hist) (k c : Nat)
    (hb : k / MANTISSAS hg.sigbits < hg.bin.length) :
    hg64_population (bump_count hg k c) = (hg64_population hg + c) % M64 := by
  rw [population_eq_sum, population_eq_sum]
  have hset := sum_map_set Bin.total emptyBin hg.bin (k / MANTISSAS hg.sigbits)
    { total := ((hg.bin.getD (k / MANTISSAS hg.sigbits) emptyBin).total + c) % M64,
      count := some ((binCounts hg.sigbits (hg.bin.getD (k / MANTISSAS hg.sigbits) emptyBin)).set
        (k % MANTISSAS hg.sigbits)
        ((List.getD (binCounts hg.sigbits (hg.bin.getD (k / MANTISSAS hg.sigbits) emptyBin))
          (k % MANTISSAS hg.sigbits) 0 + c) % M64)) } hb
  have hle := total_le_sumTotals hg (k / MANTISSAS hg.sigbits) hb
  dsimp only at hset
  unfold sumTotals at *
  simp only [bump_count]
  unfold M64 at *
  omega

lemma truePop_mod (hg : Hist) (h : HistInv hg) :
    hg64_population hg = truePop hg % M64 := by
  rw [population_eq_sum]
  unfold sumTotals truePop
  obtain ⟨hlen, hbins⟩ := h
  have hsum : ∀ (l : List Bin), (∀ b ∈ l, InvBin (MANTISSAS hg.sigbits) b) →
      ((l.map Bin.total).sum) % M64 = ((l.map binSum).sum) % M64 := by
    intro l hl
    induction l with
    | nil => rfl
    | cons b bs ih =>
      have hb := hl b (List.mem_cons_self b bs)
      have hbs := ih (fun x hx => hl x (List.mem_cons_of_mem _ hx))
      rw [List.map_cons, List.map_cons, List.sum_cons, List.sum_cons]
      have htot := binSum_mod _ b hb
      unfold M64 at *
      omega
  exact hsum hg.bin hbins

lemma HistInv_create (s : Nat) (hg : Hist) (h : hg64_create s = some hg) : HistInv hg := by
  obtain ⟨_, _, heq⟩ := create_inv h
  subst heq
  refine ⟨by simp [BINS], ?_⟩
  intro b hb
  rw [List.eq_of_mem_replicate hb]
  unfold InvBin emptyBin
  simp

lemma HistInv_add (hg : Hist) (v c : Nat) (h : HistInv hg) : HistInv (hg64_add hg v c) := by
  unfold hg64_add
  split
  · exact HistInv_bump _ _ _ h
  · exact h

lemma foldl_bump_inv (f : Hist → Nat → Hist)
    (hf : ∀ t sk, HistInv t → HistInv (f t sk)) :
    ∀ (l : List Nat) (t : Hist), HistInv t → HistInv (l.foldl f t) := by
  intro l
  induction l with
  | nil => intro t h; exact h
  | cons sk l ih => intro t h; exact ih _ (hf t sk h)

lemma HistInv_merge (t s : Hist) (h : HistInv t) : HistInv (hg64_merge t s) := by
  unfold hg64_merge
  refine foldl_bump_inv _ ?_ _ _ h
  intro t' sk h'
  dsimp only
  split
  · exact HistInv_bump _ _ _ h'
  · exact h'

lemma Reach_histInv (hg : Hist) (h : Reach hg) : HistInv hg := by
  induction h with
  | create s hg h => exact HistInv_create s hg h
  | add hg v c _ _ ih => exact HistInv_add hg v c ih
  | merge t s _ _ iht _ => exact HistInv_merge t s iht

/-- C10.  After any sequence of `create` / `add` / `inc` / `merge`
operations, every bin's stored total equals the 64-bit sum of the
counters in that bin's array (zero when the array is unallocated), the
invariant `hg64_validate` asserts with its own `uint64_t` summation; in
consequence `hg64_population` equals the 64-bit sum of all counters. -/
theorem counter_totals_invariant (hg : Hist) (h : Reach hg) :
    hg64_invariant hg = true ∧ hg64_population hg = truePop hg % M64 := by
  have hinv := Reach_histInv hg h
  exact ⟨(invariant_iff_Inv hg).mpr hinv, truePop_mod hg hinv⟩

/-- Witness for C10: `create 2`, `add 5 3`, `add (2^63) 2`, then merge
into a fresh `sigbits = 1` histogram. -/
theorem counter_totals_invariant_witness :
    hg64_invariant (hg64_merge
        ((hg64_create 1).getD default)
        (hg64_add (hg64_add ((hg64_create 2).getD default) 5 3) (2 ^ 63) 2)) = true ∧
    hg64_population (hg64_merge
        ((hg64_create 1).getD default)
        (hg64_add (hg64_add ((hg64_create 2).getD default) 5 3) (2 ^ 63) 2))
      = truePop (hg64_merge
        ((hg64_create 1).getD default)
        (hg64_add (hg64_add ((hg64_create 2).getD default) 5 3) (2 ^ 63) 2)) % M64 := by
  refine counter_totals_invariant _ ?_
  refine Reach.merge _ _ (Reach.create 1 _ rfl) ?_
  refine Reach.add _ _ _ (Reach.add _ _ _ (Reach.create 2 _ rfl) ?_) ?_
  · decide
  · unfold M64
    norm_num

/-! ## Histograms built by `add` only (claim C6 machinery) -/

/-- Bins beyond `EXPONENTS` are untouched by `add`: no value maps there. -/
def HighEmpty (hg : Hist) : Prop :=
  ∀ b, EXPONENTS hg.sigbits ≤ b → hg.bin.getD b emptyBin = emptyBin

lemma getD_replicate_self {α : Type} (a : α) : ∀ (n i : Nat), (List.replicate n a).getD i a = a
  | 0, _ => by simp
  | _ + 1, 0 => rfl
  | n + 1, i + 1 => getD_replicate_self a n i

lemma built_props (hg : Hist) (h : Built hg) :
    HistInv hg ∧ 1 ≤ hg.sigbits ∧ hg.sigbits ≤ 6 ∧ HighEmpty hg := by
  induction h with
  | create s hg h =>
    obtain ⟨hs1, hs6, heq⟩ := create_inv h
    refine ⟨HistInv_create s hg h, by rw [heq]; exact hs1, by rw [heq]; exact hs6, ?_⟩
    intro b _
    rw [heq]
    exact getD_replicate_self emptyBin BINS b
  | add hg v c _ hv ih =>
    obtain ⟨hinv, hs1, hs6, hhigh⟩ := ih
    refine ⟨HistInv_add hg v c hinv, ?_, ?_, ?_⟩
    · unfold hg64_add; split <;> exact hs1
    · unfold hg64_add; split <;> exact hs6
    · unfold hg64_add
      split
      · intro b hb
        rw [bump_sigbits] at hb
        simp only [bump_count]
        have hkey : get_key hg.sigbits v < KEYS hg.sigbits :=
          (key_lt_and_contains hg.sigbits v hs1 (by omega) hv).1
        have hbin : get_key hg.sigbits v / MANTISSAS hg.sigbits ≤ 64 - hg.sigbits := by
          unfold MANTISSAS
          exact e_bound hg.sigbits _ hs1 hkey
        have hE : EXPONENTS hg.sigbits = 65 - hg.sigbits := by
          unfold EXPONENTS DENORMALS BINS
          omega
        rw [getD_set_ne' _ _ _ _ _ (by omega)]
        exact hhigh b hb
      · exact hhigh

/-- One bin's worth of keys sums to the bin's counter sum. -/
lemma bin_counter_sum (hg : Hist) (b : Nat) (hWF : WFlen hg) :
    ∑ i ∈ Finset.range (MANTISSAS hg.sigbits),
        get_key_count hg (b * MANTISSAS hg.sigbits + i)
      = binSum (hg.bin.getD b emptyBin) := by
  have hT : 0 < MANTISSAS hg.sigbits := two_pow_pos _
  have hstep : ∀ i ∈ Finset.range (MANTISSAS hg.sigbits),
      get_key_count hg (b * MANTISSAS hg.sigbits + i)
        = match (hg.bin.getD b emptyBin).count with
          | none => 0
          | some l => l.getD i 0 := by
    intro i hi
    rw [Finset.mem_range] at hi
    simp only [get_key_count]
    have hcm : b * MANTISSAS hg.sigbits + i = MANTISSAS hg.sigbits * b + i := by
      rw [Nat.mul_comm]
    rw [hcm, decomp_div _ _ _ hT hi, decomp_mod _ _ _ hi]
  rw [Finset.sum_congr rfl hstep]
  unfold binSum
  cases hcnt : (hg.bin.getD b emptyBin).count with
  | none => simp
  | some l =>
    simp only
    by_cases hb : b < hg.bin.length
    · have hlen := hWF _ (getD_mem_of_lt _ b emptyBin hb) l hcnt
      rw [← hlen, ← list_sum_getD]
    · rw [List.getD_eq_getElem?_getD, List.getElem?_eq_none (by omega)] at hcnt
      simp [emptyBin] at hcnt

lemma sum_range_mul_split (f : Nat → Nat) (E T : Nat) :
    ∑ sk ∈ Finset.range (E * T), f sk
      = ∑ b ∈ Finset.range E, ∑ i ∈ Finset.range T, f (b * T + i) := by
  induction E with
  | zero => simp
  | succ E ih =>
    rw [Nat.succ_mul, Finset.sum_range_add, ih, Finset.sum_range_succ]

lemma sum_map_getD {α : Type} (f : α → Nat) (d : α) (l : List α) :
    (l.map f).sum = ∑ i ∈ Finset.range l.length, f (l.getD i d) := by
  induction l with
  | nil => simp
  | cons x xs ih =>
    rw [List.map_cons, List.sum_cons, List.length_cons, Finset.sum_range_succ', ih]
    simp
    omega

/-- For an add-built histogram the counters indexed by the `KEYS` valid
keys account for the whole recorded population. -/
lemma keysum_eq_truePop (hg : Hist) (hinv : HistInv hg) (hhigh : HighEmpty hg) :
    ∑ sk ∈ Finset.range (KEYS hg.sigbits), get_key_count hg sk = truePop hg := by
  have hlen := hinv.1
  have hE : EXPONENTS hg.sigbits ≤ BINS := by
    unfold EXPONENTS
    omega
  unfold KEYS
  rw [sum_range_mul_split]
  have hbins : ∀ b ∈ Finset.range (EXPONENTS hg.sigbits),
      ∑ i ∈ Finset.range (MANTISSAS hg.sigbits),
        get_key_count hg (b * MANTISSAS hg.sigbits + i)
      = binSum (hg.bin.getD b emptyBin) :=
    fun b _ => bin_counter_sum hg b hinv.wflen
  rw [Finset.sum_congr rfl hbins]
  unfold truePop
  rw [sum_map_getD binSum emptyBin, hlen]
  have hsplit : BINS = EXPONENTS hg.sigbits + (BINS - EXPONENTS hg.sigbits) := by omega
  rw [hsplit, Finset.sum_range_add]
  have hzero : ∀ x ∈ Finset.range (BINS - EXPONENTS hg.sigbits),
      binSum (hg.bin.getD (EXPONENTS hg.sigbits + x) emptyBin) = 0 := by
    intro x _
    rw [hhigh _ (Nat.le_add_right _ _)]
    rfl
  rw [Finset.sum_congr rfl hzero]
  simp

/-! ## Population additivity of `hg64_merge` (claim C6 machinery) -/

lemma merge_tk_bin (tsig ssig sk : Nat) (hts : tsig ≤ ssig) (hs1 : 1 ≤ ssig)
    (hsk : sk < KEYS ssig) :
    merge_tk tsig ssig sk / 2 ^ tsig ≤ 64 - ssig := by
  have hbound := e_bound ssig sk hs1 hsk
  simp only [merge_tk]
  rcases Nat.lt_or_ge tsig ssig with hlt | hge
  · rw [if_pos hlt, if_neg (by omega)]
    rw [Nat.shiftRight_eq_div_pow, Nat.div_div_eq_div_mul, ← pow_add]
    have he : ssig - tsig + tsig = ssig := by omega
    rw [he]
    exact hbound
  · have heq : tsig = ssig := by omega
    rw [if_neg (by omega), if_neg (by omega), heq]
    exact hbound

lemma merge_step_sig_len (s : Hist) (l : List Nat) (t : Hist) :
    ((l.foldl (fun t sk =>
        let cnt := get_key_count s sk
        if 0 < cnt then bump_count t (merge_tk t.sigbits s.sigbits sk) cnt else t) t).sigbits
      = t.sigbits) ∧
    ((l.foldl (fun t sk =>
        let cnt := get_key_count s sk
        if 0 < cnt then bump_count t (merge_tk t.sigbits s.sigbits sk) cnt else t) t).bin.length
      = t.bin.length) := by
  induction l generalizing t with
  | nil => exact ⟨rfl, rfl⟩
  | cons sk l ih =>
    rw [List.foldl_cons]
    refine ⟨?_, ?_⟩
    · rw [(ih _).1]
      dsimp only
      split
      · rfl
      · rfl
    · rw [(ih _).2]
      dsimp only
      split
      · rw [bump_bin_length]
      · rfl

lemma merge_sigbits (t s : Hist) : (hg64_merge t s).sigbits = t.sigbits :=
  (merge_step_sig_len s _ t).1

lemma merge_bin_length (t s : Hist) : (hg64_merge t s).bin.length = t.bin.length :=
  (merge_step_sig_len s _ t).2

lemma population_lt (hg : Hist) : hg64_population hg < M64 := by
  rw [population_eq_sum]
  exact Nat.mod_lt _ (by unfold M64; positivity)

lemma population_merge_fold (s : Hist) (hs1 : 1 ≤ s.sigbits) :
    ∀ (l : List Nat) (t : Hist), t.bin.length = BINS → t.sigbits ≤ s.sigbits →
      (∀ sk ∈ l, sk < KEYS s.sigbits) →
      hg64_population (l.foldl (fun t sk =>
          let cnt := get_key_count s sk
          if 0 < cnt then bump_count t (merge_tk t.sigbits s.sigbits sk) cnt else t) t)
        = (hg64_population t + (l.map (get_key_count s)).sum) % M64 := by
  intro l
  induction l with
  | nil =>
    intro t _ _ _
    simp only [List.foldl_nil, List.map_nil, List.sum_nil, Nat.add_zero]
    exact (Nat.mod_eq_of_lt (population_lt t)).symm
  | cons sk l ih =>
    intro t hlen hsig hmem
    rw [List.foldl_cons, List.map_cons, List.sum_cons]
    by_cases hcnt : 0 < get_key_count s sk
    · have hbin : merge_tk t.sigbits s.sigbits sk / MANTISSAS t.sigbits < t.bin.length := by
        have h := merge_tk_bin t.sigbits s.sigbits sk hsig hs1 (hmem sk (List.mem_cons_self sk l))
        have hlen64 : t.bin.length = 64 := by rw [hlen]; rfl
        unfold MANTISSAS
        omega
      have hpop := population_bump t (merge_tk t.sigbits s.sigbits sk) (get_key_count s sk) hbin
      dsimp only
      rw [if_pos hcnt]
      rw [ih _ (by rw [bump_bin_length]; exact hlen) (by rw [bump_sigbits]; exact hsig)
        (fun x hx => hmem x (List.mem_cons_of_mem _ hx)), hpop, Nat.mod_add_mod]
      congr 1
      omega
    · have hz : get_key_count s sk = 0 := by omega
      dsimp only
      rw [if_neg hcnt]
      rw [ih _ hlen hsig (fun x hx => hmem x (List.mem_cons_of_mem _ hx)), hz, Nat.zero_add]

lemma list_range_map_sum (f : Nat → Nat) (n : Nat) :
    ((List.range n).map f).sum = ∑ i ∈ Finset.range n, f i := by
  induction n with
  | zero => simp
  | succ n ih =>
    rw [List.range_succ, List.map_append, List.sum_append, Finset.sum_range_succ, ih]
    simp

lemma population_merge (t s : Hist) (hlen : t.bin.length = BINS)
    (hts : t.sigbits ≤ s.sigbits) (hs1 : 1 ≤ s.sigbits) :
    hg64_population (hg64_merge t s)
      = (hg64_population t + ∑ sk ∈ Finset.range (KEYS s.sigbits), get_key_count s sk) % M64 := by
  unfold hg64_merge
  rw [population_merge_fold s hs1 (List.range (KEYS s.sigbits)) t hlen hts
    (fun sk hsk => List.mem_range.mp hsk), list_range_map_sum]

lemma hg64_population_fresh (s : Nat) :
    hg64_population { sigbits := s, bin := List.replicate BINS emptyBin } = 0 := rfl

/-- C6.  For histograms A and B built from (disjoint) sequences of `add`
calls, merging both into a fresh target with the same or coarser
`sigbits` gives `population target = population A + population B`
(assuming the combined population does not wrap 64 bits, which is also
what makes the populations of A and B well defined). -/
theorem merge_population_additive (tsig : Nat) (hgt A B : Hist)
    (hcre : hg64_create tsig = some hgt)
    (hA : Built A) (hB : Built B)
    (htA : tsig ≤ A.sigbits) (htB : tsig ≤ B.sigbits)
    (hof : truePop A + truePop B < M64) :
    hg64_population (hg64_merge (hg64_merge hgt A) B)
      = hg64_population A + hg64_population B := by
  obtain ⟨hAinv, hA1, hA6, hAhigh⟩ := built_props A hA
  obtain ⟨hBinv, hB1, hB6, hBhigh⟩ := built_props B hB
  obtain ⟨ht1, ht6, hteq⟩ := create_inv hcre
  subst hteq
  have hsumA := keysum_eq_truePop A hAinv hAhigh
  have hsumB := keysum_eq_truePop B hBinv hBhigh
  have hm1 := population_merge { sigbits := tsig, bin := List.replicate BINS emptyBin } A
    (by simp [BINS]) htA hA1
  rw [hg64_population_fresh, hsumA, Nat.zero_add] at hm1
  have hm2 := population_merge (hg64_merge { sigbits := tsig, bin := List.replicate BINS emptyBin } A) B
    (by rw [merge_bin_length]; simp [BINS]) (by rw [merge_sigbits]; exact htB) hB1
  rw [hm1, hsumB] at hm2
  have hAlt : truePop A < M64 := by omega
  have hBlt : truePop B < M64 := by omega
  have hpopA := truePop_mod A hAinv
  have hpopB := truePop_mod B hBinv
  rw [hm2, Nat.mod_eq_of_lt hAlt, Nat.mod_eq_of_lt hof, hpopA, hpopB,
    Nat.mod_eq_of_lt hAlt, Nat.mod_eq_of_lt hBlt]

/-- Witness for C6: A = `create 2` + `add 5 3`, B = `create 3` + `add 100 4`,
merged into a fresh `sigbits = 1` target. -/
theorem merge_population_additive_witness :
    hg64_population (hg64_merge
        (hg64_merge ((hg64_create 1).getD default)
          (hg64_add ((hg64_create 2).getD default) 5 3))
        (hg64_add ((hg64_create 3).getD default) 100 4))
      = hg64_population (hg64_add ((hg64_create 2).getD default) 5 3)
        + hg64_population (hg64_add ((hg64_create 3).getD default) 100 4) :=
  merge_population_additive 1 _ _ _ rfl
    (Built.add _ _ _ (Built.create 2 _ rfl) (by decide))
    (Built.add _ _ _ (Built.create 3 _ rfl) (by decide))
    (by decide) (by decide) (by decide)

/-! ## Ordering of buckets and monotonicity of `get_key` (claim C5 machinery) -/

lemma minval_le_maxval (s k : Nat) : get_minval s k ≤ get_maxval s k := by
  simp only [get_maxval]
  exact Nat.le_add_right _ _

lemma max_lt_min_chain (s : Nat) (hs1 : 1 ≤ s) :
    ∀ (k' k : Nat), k < k' → k' < KEYS s → get_maxval s k < get_minval s k' := by
  intro k'
  induction k' with
  | zero => omega
  | succ k' ih =>
    intro k hk hk'
    have hcont := contiguity s (k' + 1) hs1 (by omega) hk'
    simp only [Nat.add_sub_cancel] at hcont
    rcases Nat.lt_or_ge k k' with hlt | hge
    · have hrec := ih k hlt (by omega)
      have hmm := minval_le_maxval s k'
      omega
    · have hkeq : k = k' := by omega
      subst hkeq
      omega

lemma get_key_mono (s v w : Nat) (hs1 : 1 ≤ s) (hs63 : s ≤ 63) (hvw : v ≤ w)
    (hw : w < M64) : get_key s v ≤ get_key s w := by
  by_contra hgt
  push_neg at hgt
  have hv := key_lt_and_contains s v hs1 hs63 (by omega)
  have hw' := key_lt_and_contains s w hs1 hs63 hw
  have hchain := max_lt_min_chain s hs1 (get_key s v) (get_key s w) hgt hv.1
  have h1 := hv.2.1
  have h2 := hw'.2.2
  omega

/-! ## Effect of a run of bumps on the counters -/

lemma fold_bump_pres (kmin : Nat) (incf : Nat → Nat) :
    ∀ (n : Nat) (hg : Hist),
      ((List.range n).foldl (fun h j => bump_count h (kmin + j) (incf j)) hg).sigbits
          = hg.sigbits ∧
      ((List.range n).foldl (fun h j => bump_count h (kmin + j) (incf j)) hg).bin.length
          = hg.bin.length ∧
      (WFlen hg →
        WFlen ((List.range n).foldl (fun h j => bump_count h (kmin + j) (incf j)) hg)) := by
  intro n
  induction n with
  | zero => intro hg; exact ⟨rfl, rfl, fun h => h⟩
  | succ n ih =>
    intro hg
    rw [List.range_succ, List.foldl_append, List.foldl_cons, List.foldl_nil]
    obtain ⟨hsig, hlen, hwf⟩ := ih hg
    refine ⟨by rw [bump_sigbits, hsig], by rw [bump_bin_length, hlen], fun h => ?_⟩
    exact WFlen_bump _ _ _ (hwf h)

lemma fold_bump_effect (kmin : Nat) (incf : Nat → Nat) :
    ∀ (n : Nat) (hg : Hist), WFlen hg →
      (∀ j, j < n → (kmin + j) / MANTISSAS hg.sigbits < hg.bin.length) →
      ((∀ q, (∀ j, j < n → q ≠ kmin + j) →
          get_key_count ((List.range n).foldl (fun h j => bump_count h (kmin + j) (incf j)) hg) q
            = get_key_count hg q)
       ∧ (∀ j, j < n →
          get_key_count ((List.range n).foldl (fun h j => bump_count h (kmin + j) (incf j)) hg)
              (kmin + j)
            = (get_key_count hg (kmin + j) + incf j) % M64)) := by
  intro n
  induction n with
  | zero =>
    intro hg _ _
    exact ⟨fun q _ => rfl, fun j hj => absurd hj (by omega)⟩
  | succ n ih =>
    intro hg hwf hbins
    obtain ⟨ihout, ihin⟩ := ih hg hwf (fun j hj => hbins j (by omega))
    obtain ⟨hsig, hlen, hwfF⟩ := fold_bump_pres kmin incf n hg
    have hbinn : (kmin + n) / MANTISSAS
        ((List.range n).foldl (fun h j => bump_count h (kmin + j) (incf j)) hg).sigbits
        < ((List.range n).foldl (fun h j => bump_count h (kmin + j) (incf j)) hg).bin.length := by
      rw [hsig, hlen]
      exact hbins n (by omega)
    rw [List.range_succ, List.foldl_append, List.foldl_cons, List.foldl_nil]
    constructor
    · intro q hq
      rw [get_key_count_bump _ _ _ _ (hwfF hwf) hbinn,
        if_neg (hq n (by omega)), ihout q (fun j hj => hq j (by omega))]
    · intro j hj
      rcases Nat.lt_or_ge j n with hjn | hjn
      · rw [get_key_count_bump _ _ _ _ (hwfF hwf) hbinn,
          if_neg (by omega), ihin j hjn]
      · have hje : j = n := by omega
        subst hje
        rw [get_key_count_bump _ _ _ _ (hwfF hwf) hbinn, if_pos rfl,
          ihout (kmin + j) (fun i hi => by omega)]

lemma sum_ite_lt (n : Nat) : ∀ (r : Nat), r ≤ n →
    ∑ j ∈ Finset.range n, (if j < r then 1 else 0) = r := by
  induction n with
  | zero => intro r hr; simp; omega
  | succ n ih =>
    intro r hr
    rw [Finset.sum_range_succ]
    rcases Nat.lt_or_ge r (n + 1) with hrn | hrn
    · rw [ih r (by omega), if_neg (by omega)]
      omega
    · have hre : r = n + 1 := by omega
      subst hre
      rw [if_pos (by omega)]
      have hall : ∀ j ∈ Finset.range n, (if j < n + 1 then 1 else 0) = 1 := by
        intro j hj
        rw [Finset.mem_range] at hj
        rw [if_pos (by omega)]
      rw [Finset.sum_congr rfl hall, Finset.sum_const, Finset.card_range, smul_eq_mul]
      omega

lemma sum_distribution (n c : Nat) (hn : 0 < n) :
    ∑ j ∈ Finset.range n, (c / n + if j < c % n then 1 else 0) = c := by
  rw [Finset.sum_add_distrib, Finset.sum_const, Finset.card_range, smul_eq_mul,
    sum_ite_lt n (c % n) (le_of_lt (Nat.mod_lt _ hn))]
  exact Nat.div_add_mod c n

/-- C5 (spec-modelled `hg64_put` / put-based merge).  Converting a source
bucket's value range `[smin, smax]` to target keys `kmin = value_to_key smin`,
`kmax = value_to_key smax` is well defined (`kmin ≤ kmax`); `hg64_put`
then adds `c / n` to each of the `n = kmax - kmin + 1` target keys, one
more to the first `c % n` of them, leaves every other key untouched, and
the distributed increments sum to exactly `c`.  This holds for any
`sigbits` in the spec's `create` range `[1, 15]`, whether the target is
finer or coarser than the source of the range and also in the denormal
region.  `hg64_merge_put` applies this to every source key with a
non-zero count. -/
theorem merge_put_distributes (t : Hist) (smin smax c : Nat)
    (hinv : HistInv t) (hs1 : 1 ≤ t.sigbits) (hs15 : t.sigbits ≤ 15)
    (hmm : smin ≤ smax) (hmx : smax < M64) (_hc : 0 < c) :
    get_key t.sigbits smin ≤ get_key t.sigbits smax ∧
    (∀ j, j < get_key t.sigbits smax - get_key t.sigbits smin + 1 →
      get_key_count (hg64_put t smin smax c) (get_key t.sigbits smin + j)
        = (get_key_count t (get_key t.sigbits smin + j)
            + (c / (get_key t.sigbits smax - get_key t.sigbits smin + 1)
               + if j < c % (get_key t.sigbits smax - get_key t.sigbits smin + 1)
                 then 1 else 0)) % M64) ∧
    (∀ q, q < get_key t.sigbits smin ∨ get_key t.sigbits smax < q →
      get_key_count (hg64_put t smin smax c) q = get_key_count t q) ∧
    ∑ j ∈ Finset.range (get_key t.sigbits smax - get_key t.sigbits smin + 1),
        (c / (get_key t.sigbits smax - get_key t.sigbits smin + 1)
         + if j < c % (get_key t.sigbits smax - get_key t.sigbits smin + 1)
           then 1 else 0) = c := by
  have hs63 : t.sigbits ≤ 63 := by omega
  have hmono := get_key_mono t.sigbits smin smax hs1 hs63 hmm hmx
  have hkmax := key_lt_and_contains t.sigbits smax hs1 hs63 hmx
  have hlen64 : t.bin.length = 64 := by rw [hinv.1]; rfl
  have hbins : ∀ j, j < get_key t.sigbits smax - get_key t.sigbits smin + 1 →
      (get_key t.sigbits smin + j) / MANTISSAS t.sigbits < t.bin.length := by
    intro j hj
    have hle : get_key t.sigbits smin + j < KEYS t.sigbits := by omega
    have hb := e_bound t.sigbits (get_key t.sigbits smin + j) hs1 hle
    unfold MANTISSAS
    omega
  have heffect := fold_bump_effect (get_key t.sigbits smin)
    (fun j => c / (get_key t.sigbits smax - get_key t.sigbits smin + 1)
       + if j < c % (get_key t.sigbits smax - get_key t.sigbits smin + 1) then 1 else 0)
    (get_key t.sigbits smax - get_key t.sigbits smin + 1) t hinv.wflen hbins
  have hput : hg64_put t smin smax c
      = (List.range (get_key t.sigbits smax - get_key t.sigbits smin + 1)).foldl
          (fun h j => bump_count h (get_key t.sigbits smin + j)
            (c / (get_key t.sigbits smax - get_key t.sigbits smin + 1)
             + if j < c % (get_key t.sigbits smax - get_key t.sigbits smin + 1)
               then 1 else 0)) t := rfl
  refine ⟨hmono, ?_, ?_, sum_distribution _ c (by omega)⟩
  · intro j hj
    rw [hput]
    exact heffect.2 j hj
  · intro q hq
    rw [hput]
    exact heffect.1 q (fun j hj => by omega)

/-- Witness for C5: target `sigbits = 2`, source bucket `[8, 11]`
(a `sigbits = 1` bucket), count 5; the two target keys 8 and 9 receive
3 and 2, neighbours stay at zero. -/
theorem merge_put_distributes_witness :
    get_key_count (hg64_put ((hg64_create 2).getD default) 8 11 5) 8 = 3 ∧
    get_key_count (hg64_put ((hg64_create 2).getD default) 8 11 5) 9 = 2 ∧
    get_key_count (hg64_put ((hg64_create 2).getD default) 8 11 5) 7 = 0 ∧
    get_key_count (hg64_put ((hg64_create 2).getD default) 8 11 5) 10 = 0 := by
  obtain ⟨h1, h2, h3, h4⟩ := merge_put_distributes ((hg64_create 2).getD default) 8 11 5
    (by rw [← invariant_iff_Inv]; decide) (by decide) (by decide)
    (by decide) (by decide) (by decide)
  refine ⟨?_, ?_, ?_, ?_⟩
  · have h20 := h2 0 (by decide)
    rw [show get_key ((hg64_create 2).getD default).sigbits 8 + 0 = 8 from by decide] at h20
    rw [h20]
    decide
  · have h21 := h2 1 (by decide)
    rw [show get_key ((hg64_create 2).getD default).sigbits 8 + 1 = 9 from by decide] at h21
    rw [h21]
    decide
  · have h37 := h3 7 (by decide)
    rw [h37]
    decide
  · have h310 := h3 10 (by decide)
    rw [h310]
    decide

/-! ## `hg64_value_at_rank` out-of-range behaviour (claim C7 machinery) -/

lemma rank_loop1_falls (hg : Hist) :
    ∀ (fuel j key rank : Nat),
      key = j * BINSIZE hg.sigbits →
      j ≤ EXPONENTS hg.sigbits →
      EXPONENTS hg.sigbits - j ≤ fuel →
      (∑ b ∈ Finset.Ico j (EXPONENTS hg.sigbits), (hg.bin.getD b emptyBin).total) ≤ rank →
      rank_loop1 hg (KEYS hg.sigbits) (BINSIZE hg.sigbits) fuel key rank
        = (KEYS hg.sigbits,
           rank - ∑ b ∈ Finset.Ico j (EXPONENTS hg.sigbits), (hg.bin.getD b emptyBin).total) := by
  have hT : 0 < BINSIZE hg.sigbits := two_pow_pos _
  have hKE : EXPONENTS hg.sigbits * BINSIZE hg.sigbits = KEYS hg.sigbits := rfl
  intro fuel
  induction fuel with
  | zero =>
    intro j key rank hkey hjE hfuel _
    have hjeq : j = EXPONENTS hg.sigbits := by omega
    subst hjeq
    subst hkey
    rw [hKE]
    simp [rank_loop1]
  | succ fuel ih =>
    intro j key rank hkey hjE hfuel hsum
    rcases Nat.lt_or_ge j (EXPONENTS hg.sigbits) with hjlt | hjge
    · have hkeylt : key < KEYS hg.sigbits := by
        rw [hkey, ← hKE]
        exact (Nat.mul_lt_mul_right hT).mpr hjlt
      have hdiv : key / MANTISSAS hg.sigbits = j := by
        rw [hkey]
        exact Nat.mul_div_cancel j hT
      have hcount : get_bin_count hg key = (hg.bin.getD j emptyBin).total := by
        unfold get_bin_count
        rw [hdiv]
      have hpeel := Finset.sum_eq_sum_Ico_succ_bot hjlt
        (fun b => (hg.bin.getD b emptyBin).total)
      have hcount_le : (hg.bin.getD j emptyBin).total ≤ rank := by
        rw [hpeel] at hsum
        omega
      simp only [rank_loop1]
      rw [if_pos hkeylt, hcount, if_neg (by omega)]
      have hkey' : key + BINSIZE hg.sigbits = (j + 1) * BINSIZE hg.sigbits := by
        rw [hkey, Nat.succ_mul]
      rw [ih (j + 1) _ _ hkey' (by omega) (by omega) (by rw [hpeel] at hsum; omega)]
      have hsum' : (∑ b ∈ Finset.Ico (j + 1) (EXPONENTS hg.sigbits),
          (hg.bin.getD b emptyBin).total) ≤ rank - (hg.bin.getD j emptyBin).total := by
        rw [hpeel] at hsum
        omega
      rw [Prod.mk.injEq]
      refine ⟨rfl, ?_⟩
      rw [hpeel]
      omega
    · have hjeq : j = EXPONENTS hg.sigbits := by omega
      subst hjeq
      subst hkey
      rw [hKE]
      simp [rank_loop1]

lemma value_at_rank_oob (hg : Hist) (hlen : hg.bin.length = BINS)
    (hof : sumTotals hg < M64) (rank : Nat) (hrank : hg64_population hg ≤ rank) :
    hg64_value_at_rank hg rank = U64MAX := by
  have hpop : hg64_population hg = sumTotals hg := by
    rw [population_eq_sum, Nat.mod_eq_of_lt hof]
  have hE64 : EXPONENTS hg.sigbits ≤ BINS := by
    unfold EXPONENTS
    omega
  have hsum_range : sumTotals hg
      = ∑ b ∈ Finset.range BINS, (hg.bin.getD b emptyBin).total := by
    unfold sumTotals
    rw [sum_map_getD Bin.total emptyBin, hlen]
  have hsplit := Finset.sum_range_add (fun b => (hg.bin.getD b emptyBin).total)
    (EXPONENTS hg.sigbits) (BINS - EXPONENTS hg.sigbits)
  rw [show EXPONENTS hg.sigbits + (BINS - EXPONENTS hg.sigbits) = BINS from by omega]
    at hsplit
  have hIco : (∑ b ∈ Finset.Ico 0 (EXPONENTS hg.sigbits), (hg.bin.getD b emptyBin).total)
      ≤ rank := by
    rw [← Finset.range_eq_Ico]
    omega
  have hloop := rank_loop1_falls hg (KEYS hg.sigbits) 0 0 rank (by rw [Nat.zero_mul])
    (Nat.zero_le _)
    (by
      have h1 : EXPONENTS hg.sigbits ≤ KEYS hg.sigbits :=
        Nat.le_mul_of_pos_right _ (two_pow_pos _)
      omega)
    hIco
  simp only [hg64_value_at_rank]
  rw [hloop]
  dsimp only
  rw [if_pos rfl]

/-- C7 (amended).  `value_at_rank` returns `UINT64_MAX` for every
`rank ≥ population` (for any histogram whose 64-bit totals have not
wrapped — with wrapped totals the population is smaller than the bin
totals the loop subtracts and the claim fails); on an empty histogram
`value_at_rank 0 = UINT64_MAX`; and after a single `inc 42` on a fresh
histogram `value_at_rank 0` returns the minimum value of the bucket of
42 — which is 42 itself only when `sigbits ≥ 4` (e.g. 40 at
`sigbits = 3`) — while `value_at_rank 1 = UINT64_MAX`. -/
theorem value_at_rank_out_of_range_amended :
    (∀ hg : Hist, hg.bin.length = BINS → sumTotals hg < M64 →
      ∀ rank, hg64_population hg ≤ rank → hg64_value_at_rank hg rank = U64MAX) ∧
    (∀ s hg, hg64_create s = some hg → hg64_value_at_rank hg 0 = U64MAX) ∧
    (∀ s hg, hg64_create s = some hg →
      hg64_value_at_rank (hg64_inc hg 42) 0 = get_minval s (get_key s 42) ∧
      hg64_value_at_rank (hg64_inc hg 42) 1 = U64MAX) := by
  refine ⟨value_at_rank_oob, ?_, ?_⟩
  · intro s hg hcre
    obtain ⟨hs1, hs6, heq⟩ := create_inv hcre
    subst heq
    refine value_at_rank_oob _ (by simp [BINS]) ?_ 0 ?_
    · rw [show sumTotals { sigbits := s, bin := List.replicate BINS emptyBin } = 0 from rfl]
      unfold M64
      positivity
    · rw [show hg64_population { sigbits := s, bin := List.replicate BINS emptyBin } = 0
        from rfl]
  · intro s hg hcre
    obtain ⟨hs1, hs6, heq⟩ := create_inv hcre
    subst heq
    interval_cases s <;> exact ⟨by decide, by decide⟩

/-- Witness for C7 at `sigbits = 5`, where the bucket of 42 is exact. -/
theorem value_at_rank_out_of_range_amended_witness :
    hg64_value_at_rank (hg64_inc ((hg64_create 5).getD default) 42) 0 = 42 ∧
    hg64_value_at_rank (hg64_inc ((hg64_create 5).getD default) 42) 1 = U64MAX := by
  obtain ⟨_, _, h3⟩ := value_at_rank_out_of_range_amended
  obtain ⟨ha, hb⟩ := h3 5 ((hg64_create 5).getD default) rfl
  exact ⟨by rw [ha]; decide, hb⟩

/-- Counterexample for C7 as stated: at `sigbits = 3` a single `inc 42`
gives `value_at_rank 0 = 40`, not 42 (the bucket of 42 is `[40, 43]`). -/
theorem value_at_rank_inc42_sigbits3_counterexample :
    hg64_create 3 = some { sigbits := 3, bin := List.replicate BINS emptyBin } ∧
    hg64_value_at_rank
      (hg64_inc { sigbits := 3, bin := List.replicate BINS emptyBin } 42) 0 = 40 ∧
    (40 : Nat) ≠ 42 :=
  ⟨rfl, by decide, by decide⟩
